import Mathlib

/-!
Verification of the route-optimiser core (backend/solver.py and
backend/distance.py) against its specification.

Modelling conventions:
- Machine floats become rationals for the distance-service path and reals
  for the trigonometric haversine fallback.
- An N by N numpy matrix becomes a total function from pairs of naturals,
  with the convention that only indices below N are meaningful; numpy
  zero-initialisation shows up as the value 0 outside the written region.
- The external distance service (the requests call plus JSON parsing in
  osrm table request) becomes an oracle of type OsrmService: given the
  coordinate list and the source and destination index lists of one
  request, it returns the parsed nested distance list, or none for any
  failure (network error, bad status, malformed payload).
- The external search engine (OR-Tools) becomes an oracle of type Solver:
  given the integer cost matrix, the node count of the routing model and
  the start node, it returns the sequence of nodes visited from the start
  node (inclusive) to the end node (exclusive), or none when no feasible
  solution was found in time.  Its single-vehicle contract (every node
  visited exactly once) enters theorems as an explicit hypothesis.
-/

/-- The zero matrix, the numpy zeros base of every assembled matrix. -/
def zeroMat : ℕ → ℕ → ℚ := fun _ _ => 0

/-- Pointwise update of a matrix cell, modelling matrix[i][j] = v. -/
def mUpdate (m : ℕ → ℕ → ℚ) (i j : ℕ) (v : ℚ) : ℕ → ℕ → ℚ :=
  fun a b => if a = i ∧ b = j then v else m a b

/-- Python int() applied to a rational: truncation toward zero. -/
def truncInt (q : ℚ) : ℤ :=
  if 0 ≤ q then ⌊q⌋ else ⌈q⌉

/-- numpy max of a nonempty list of values (seeded with the first element,
so it is the true maximum on nonempty input; 0 on empty input, which the
code never hits because callers guard on nonemptiness). -/
def npMax (l : List ℚ) : ℚ := l.foldl max (l.headD 0)

/-- All entries of the leading n by n block of a matrix, row-major; the
flattened view over which distance_matrix.max() ranges. -/
def matEntries (n : ℕ) (m : ℕ → ℕ → ℚ) : List ℚ :=
  (List.range n).flatMap fun i => (List.range n).map fun j => m i j

/-- The working cost matrix of solve_tsp (solver.py lines 46 to 57):
a copy of the distance matrix, plus, when revenues are present with
revenue_weight positive, matching length and positive maximum, a
per-destination-column penalty
revenue_weight * max(distance_matrix) * (1 - revenues[j] / max(revenues)). -/
def costMatrix (n : ℕ) (dist : ℕ → ℕ → ℚ) (revenues : Option (List ℚ))
    (revenue_weight : ℚ) : ℕ → ℕ → ℚ :=
  match revenues with
  | none => dist
  | some rev =>
    if 0 < revenue_weight ∧ rev.length = n then
      if 0 < npMax rev then
        fun i j =>
          if i < n ∧ j < n then
            dist i j +
              revenue_weight * npMax (matEntries n dist) * (1 - rev.getD j 0 / npMax rev)
          else dist i j
      else dist
    else dist

/-- Integer scaling of the cost matrix (solver.py: scale = 1000, entries
int(cost_matrix[i][j] * scale) written into a numpy zeros block). -/
def scaledIntMatrix (n : ℕ) (cost : ℕ → ℕ → ℚ) : ℕ → ℕ → ℤ :=
  fun i j => if i < n ∧ j < n then truncInt (cost i j * 1000) else 0

/-- The (n+1) by (n+1) integer matrix of the open fixed-depot branch
(solver.py lines 84 to 93): scaled costs on the real block, the fixed
cost 999999999 on every outgoing arc of the dummy end node n, and the
numpy zeros elsewhere (in particular zero cost into the dummy end). -/
def fixedStartIntMatrix (n : ℕ) (cost : ℕ → ℕ → ℚ) : ℕ → ℕ → ℤ :=
  fun i j => if i = n ∧ j < n then 999999999 else scaledIntMatrix n cost i j

/-- The search-engine oracle: integer matrix, routing-model node count and
start node in, visited node sequence (start inclusive, end exclusive) or
none out. -/
def Solver : Type := (ℕ → ℕ → ℤ) → ℕ → Option ℕ → Option (List ℕ)

/-- solve_and_extract (solver.py lines 130 to 161): on a found solution,
walk the tour emitting every node not in skip_nodes; with no solution,
fall back to the real nodes in their original input order. -/
def solveAndExtract (sol : Option (List ℕ)) (numNodes : ℕ)
    (skipNodes : List ℕ) : List ℕ :=
  match sol with
  | none => (List.range numNodes).filter fun i => decide (i ∉ skipNodes)
  | some tour => tour.filter fun x => decide (x ∉ skipNodes)

/-- solve_tsp (solver.py lines 9 to 127): build the cost matrix, pick the
topology branch, build the integer matrix of that branch, run the search
oracle and extract the route. -/
def solveTsp (n : ℕ) (dist : ℕ → ℕ → ℚ) (revenues : Option (List ℚ))
    (revenue_weight : ℚ) (depotIdx : Option ℕ) (closed : Bool)
    (solver : Solver) : List ℕ :=
  let cost := costMatrix n dist revenues revenue_weight
  match depotIdx, closed with
  | some d, true =>
    solveAndExtract (solver (scaledIntMatrix n cost) n (some d)) n []
  | some d, false =>
    solveAndExtract (solver (fixedStartIntMatrix n cost) (n + 1) (some d)) (n + 1) [n]
  | none, _ =>
    solveAndExtract (solver (scaledIntMatrix n cost) (n + 1) (some n)) (n + 1) [n]

/-- The distance-service oracle: one table request (coordinate list,
source indices, destination indices) in, parsed nested distance list or
none (any failure of osrm table request) out. -/
def OsrmService (P : Type) : Type :=
  List P → List ℕ → List ℕ → Option (List (List (Option ℚ)))

/-- A consistent mocked service: every request succeeds and each response
cell depends only on the source and destination coordinates it asks
about, exactly the premise of the chunking-equivalence property. -/
def mockService {P : Type} [Inhabited P] (f : P → P → Option ℚ) :
    OsrmService P :=
  fun coords sources dests =>
    some (sources.map fun s => dests.map fun d =>
      f (coords.getD s default) (coords.getD d default))

/-- Service cap per request (distance.py OSRM_MAX_COORDS). -/
def OSRM_MAX_COORDS : ℕ := 100

/-- Chunk size of the batched path (distance.py CHUNK_SIZE). -/
def CHUNK_SIZE : ℕ := 50

/-- Cell cleanup of the single-request path (distance.py line 115):
np.where(np.isnan(matrix) or (matrix lt 0), 1e9, matrix); a JSON null
becomes NaN inside np.array and hence the sentinel. -/
def sanitizeSingle (v : Option ℚ) : ℚ :=
  match v with
  | none => 10 ^ 9
  | some x => if x < 0 then 10 ^ 9 else x

/-- Cell cleanup of the chunked path (distance.py line 142):
val if val is not None and val gte 0 else 1e9. -/
def sanitizeChunk (v : Option ℚ) : ℚ :=
  match v with
  | none => 10 ^ 9
  | some x => if 0 ≤ x then x else 10 ^ 9

/-- The single-request branch of osrm full matrix (distance.py lines 106
to 116): one request over all coordinates, then cell cleanup. -/
def osrmSinglePath {P : Type} [Inhabited P] (σ : OsrmService P)
    (coords : List P) : Option (ℕ → ℕ → ℚ) :=
  match σ coords (List.range coords.length) (List.range coords.length) with
  | none => none
  | some distances =>
    some fun i j => sanitizeSingle ((distances.getD i []).getD j none)

/-- Order-preserving deduplication keeping first occurrences, modelling
list(dict.fromkeys(src_chunk + dst_chunk)). -/
def dedupFirst : List ℕ → List ℕ
  | [] => []
  | x :: xs => x :: (dedupFirst xs).filter fun y => decide (y ≠ x)

/-- The contiguous index chunks of the batched path (distance.py line
120): chunk q is range(q*cs, min(q*cs + cs, n)), for q*cs ranging over
range(0, n, cs). -/
def osrmChunks (n cs : ℕ) : List (List ℕ) :=
  (List.range ((n + cs - 1) / cs)).map fun q =>
    List.range' (q * cs) (min (q * cs + cs) n - q * cs)

/-- All ordered chunk pairs, in the nested-loop order of the source. -/
def chunkPairs (n cs : ℕ) : List (List ℕ × List ℕ) :=
  (osrmChunks n cs).flatMap fun sc => (osrmChunks n cs).map fun dc => (sc, dc)

/-- One sub-request of the batched path (distance.py lines 128 to 135):
the union of the two chunks is deduplicated, coordinates are gathered and
the chunk indices are translated to positions inside that union. -/
def chunkPairRequest {P : Type} [Inhabited P] (σ : OsrmService P)
    (coords : List P) (srcChunk dstChunk : List ℕ) :
    Option (List (List (Option ℚ))) :=
  let combined := dedupFirst (srcChunk ++ dstChunk)
  let subCoords := combined.map fun i => coords.getD i default
  let localSources := srcChunk.map fun i => combined.indexOf i
  let localDests := dstChunk.map fun i => combined.indexOf i
  σ subCoords localSources localDests

/-- The write-back double loop of the batched path (distance.py lines 139
to 142): cell (src_chunk[r], dst_chunk[c]) receives the cleaned response
cell (r, c). -/
def writeChunkPair (srcChunk dstChunk : List ℕ)
    (distances : List (List (Option ℚ))) (m : ℕ → ℕ → ℚ) : ℕ → ℕ → ℚ :=
  (List.range srcChunk.length).foldl
    (fun m r =>
      (List.range dstChunk.length).foldl
        (fun m c =>
          mUpdate m (srcChunk.getD r 0) (dstChunk.getD c 0)
            (sanitizeChunk ((distances.getD r []).getD c none)))
        m)
    m

/-- The nested response list the consistent mocked service returns for
the sub-request of one chunk pair; chunkPairRequest applied to
mockService f computes exactly some of this. -/
def mockDistances {P : Type} [Inhabited P] (f : P → P → Option ℚ)
    (coords : List P) (srcChunk dstChunk : List ℕ) :
    List (List (Option ℚ)) :=
  let combined := dedupFirst (srcChunk ++ dstChunk)
  let subCoords := combined.map fun i => coords.getD i default
  let localSources := srcChunk.map fun i => combined.indexOf i
  let localDests := dstChunk.map fun i => combined.indexOf i
  localSources.map fun s => localDests.map fun d =>
    f (subCoords.getD s default) (subCoords.getD d default)

/-- The matrix accumulated by the batched loop over a list of chunk pairs
when every sub-request is answered by the consistent mocked service. -/
def chunkAccum {P : Type} [Inhabited P] (f : P → P → Option ℚ)
    (coords : List P) :
    List (List ℕ × List ℕ) → (ℕ → ℕ → ℚ) → (ℕ → ℕ → ℚ)
  | [], m => m
  | p :: rest, m =>
    chunkAccum f coords rest
      (writeChunkPair p.1 p.2 (mockDistances f coords p.1 p.2) m)

/-- The batched request loop (distance.py lines 126 to 142): issue the
sub-request of each chunk pair in order, aborting the whole attempt on
the first failure, otherwise writing the cells back. -/
def runChunkPairs {P : Type} [Inhabited P] (σ : OsrmService P)
    (coords : List P) :
    List (List ℕ × List ℕ) → (ℕ → ℕ → ℚ) → Option (ℕ → ℕ → ℚ)
  | [], m => some m
  | p :: rest, m =>
    match chunkPairRequest σ coords p.1 p.2 with
    | none => none
    | some distances =>
      runChunkPairs σ coords rest (writeChunkPair p.1 p.2 distances m)

/-- The batched branch of osrm full matrix, starting from the numpy
zeros matrix, with an adjustable chunk size. -/
def osrmChunkedPath {P : Type} [Inhabited P] (σ : OsrmService P)
    (coords : List P) (cs : ℕ) : Option (ℕ → ℕ → ℚ) :=
  runChunkPairs σ coords (chunkPairs coords.length cs) zeroMat

/-- osrm full matrix (distance.py lines 96 to 144): one request when the
point count fits the cap, otherwise the batched path with CHUNK_SIZE. -/
def osrmFullMatrix {P : Type} [Inhabited P] (σ : OsrmService P)
    (coords : List P) : Option (ℕ → ℕ → ℚ) :=
  if coords.length ≤ OSRM_MAX_COORDS then osrmSinglePath σ coords
  else osrmChunkedPath σ coords CHUNK_SIZE

/-- The failure condition of the live attempt: the one request of the
single path fails, or some sub-request of the batched path fails. -/
def liveAttemptFails {P : Type} [Inhabited P] (σ : OsrmService P)
    (coords : List P) : Prop :=
  (coords.length ≤ OSRM_MAX_COORDS ∧
    σ coords (List.range coords.length) (List.range coords.length) = none) ∨
  (OSRM_MAX_COORDS < coords.length ∧
    ∃ p ∈ chunkPairs coords.length CHUNK_SIZE,
      chunkPairRequest σ coords p.1 p.2 = none)

/-- One haversine entry (distance.py lines 30 to 44): great-circle
distance between two (lat, lng) points in decimal degrees, with
np.radians landing as multiplication by pi over 180. -/
noncomputable def haversineEntry (c1 c2 : ℝ × ℝ) : ℝ :=
  2 * 6371000 * Real.arcsin (Real.sqrt
    (Real.sin ((c2.1 * (Real.pi / 180) - c1.1 * (Real.pi / 180)) / 2) ^ 2 +
      Real.cos (c1.1 * (Real.pi / 180)) * Real.cos (c2.1 * (Real.pi / 180)) *
        Real.sin ((c2.2 * (Real.pi / 180) - c1.2 * (Real.pi / 180)) / 2) ^ 2))

/-- The haversine fallback matrix. -/
noncomputable def haversineMatrix (coords : List (ℝ × ℝ)) : ℕ → ℕ → ℝ :=
  fun i j => haversineEntry (coords.getD i default) (coords.getD j default)

/-- compute distance matrix (distance.py lines 151 to 173): try the live
service when asked, keep its matrix on success (rational service values
embedded into the reals), otherwise fall back to haversine. -/
noncomputable def computeDistanceMatrix (σ : OsrmService (ℝ × ℝ))
    (useRoads : Bool) (coords : List (ℝ × ℝ)) : ℕ → ℕ → ℝ :=
  if useRoads then
    match osrmFullMatrix σ coords with
    | some m => fun i j => ((m i j : ℚ) : ℝ)
    | none => haversineMatrix coords
  else haversineMatrix coords

theorem npMax_le_seed (l : List ℚ) (s : ℚ) : s ≤ l.foldl max s := by
  induction l generalizing s with
  | nil => simp
  | cons a t ih => exact le_trans (le_max_left s a) (ih (max s a))

theorem mem_le_foldl_max (l : List ℚ) (a : ℚ) :
    ∀ s : ℚ, a ∈ l → a ≤ l.foldl max s := by
  induction l with
  | nil => intro s ha; simp at ha
  | cons b t ih =>
    intro s ha
    rcases List.mem_cons.mp ha with h | h
    · subst h
      exact le_trans (le_max_right s a) (npMax_le_seed t (max s a))
    · exact ih (max s b) h

theorem le_npMax_of_mem (l : List ℚ) (a : ℚ) (ha : a ∈ l) : a ≤ npMax l :=
  mem_le_foldl_max l a (l.headD 0) ha

theorem npMax_nonneg_of_forall (l : List ℚ) (hne : l ≠ [])
    (h : ∀ x ∈ l, 0 ≤ x) : 0 ≤ npMax l := by
  have hh : l.headD 0 ∈ l := by
    cases l with
    | nil => exact absurd rfl hne
    | cons a t => simp
  exact le_trans (h _ hh) (npMax_le_seed l (l.headD 0))

theorem mem_matEntries (n : ℕ) (m : ℕ → ℕ → ℚ) (x : ℚ) :
    x ∈ matEntries n m ↔ ∃ i < n, ∃ j < n, x = m i j := by
  simp only [matEntries, List.mem_flatMap, List.mem_map, List.mem_range]
  constructor
  · rintro ⟨i, hi, j, hj, hx⟩
    exact ⟨i, hi, j, hj, hx.symm⟩
  · rintro ⟨i, hi, j, hj, hx⟩
    exact ⟨i, hi, j, hj, hx.symm⟩

/-- Claim C4: with revenues of length N, positive maximum revenue and
positive revenue weight, the working cost matrix of solve_tsp equals the
distance matrix plus the column penalty
revenue_weight * max(dist) * (1 - revenues[j] / max(revenues)); and for
non-negative revenues the penalty of each column lies between 0 and
revenue_weight * max(dist). -/
theorem c4_revenue_bias_formula (n : ℕ) (dist : ℕ → ℕ → ℚ) (revs : List ℚ)
    (w : ℚ) (hw : 0 < w) (hlen : revs.length = n) (hmax : 0 < npMax revs)
    (hd : ∀ i j, i < n → j < n → 0 ≤ dist i j) :
    (∀ i j, i < n → j < n →
      costMatrix n dist (some revs) w i j =
        dist i j +
          w * npMax (matEntries n dist) * (1 - revs.getD j 0 / npMax revs)) ∧
    (∀ j, j < n → (∀ x ∈ revs, 0 ≤ x) →
      0 ≤ w * npMax (matEntries n dist) * (1 - revs.getD j 0 / npMax revs) ∧
        w * npMax (matEntries n dist) * (1 - revs.getD j 0 / npMax revs) ≤
          w * npMax (matEntries n dist)) := by
  have hne : revs ≠ [] := by
    intro h
    rw [h] at hmax
    simp [npMax] at hmax
  have hn : 0 < n := by
    cases revs with
    | nil => exact absurd rfl hne
    | cons a t => simp at hlen; omega
  have hMd : 0 ≤ npMax (matEntries n dist) := by
    apply npMax_nonneg_of_forall
    · have : dist 0 0 ∈ matEntries n dist :=
        (mem_matEntries n dist (dist 0 0)).mpr ⟨0, hn, 0, hn, rfl⟩
      exact List.ne_nil_of_mem this
    · intro x hx
      rcases (mem_matEntries n dist x).mp hx with ⟨i, hi, j, hj, hx⟩
      rw [hx]; exact hd i j hi hj
  constructor
  · intro i j hi hj
    simp only [costMatrix]
    rw [if_pos ⟨hw, hlen⟩, if_pos hmax, if_pos ⟨hi, hj⟩]
  · intro j hj hnn
    have hmem : revs.getD j 0 ∈ revs := by
      have hjl : j < revs.length := by omega
      rw [List.getD_eq_getElem revs 0 hjl]
      exact List.getElem_mem hjl
    have hle : revs.getD j 0 ≤ npMax revs := le_npMax_of_mem revs _ hmem
    have hge : 0 ≤ revs.getD j 0 := hnn _ hmem
    have h1 : revs.getD j 0 / npMax revs ≤ 1 := (div_le_one hmax).mpr hle
    have h0 : 0 ≤ revs.getD j 0 / npMax revs := div_nonneg hge (le_of_lt hmax)
    constructor
    · apply mul_nonneg (mul_nonneg (le_of_lt hw) hMd)
      linarith
    · nlinarith [mul_nonneg (mul_nonneg (le_of_lt hw) hMd) h0]

/-- Claim C9: a revenues list whose length differs from the matrix side
is silently ignored: the call returns the same route as revenues=None. -/
theorem c9_length_mismatch_skips_bias (n : ℕ) (dist : ℕ → ℕ → ℚ)
    (revs : List ℚ) (w : ℚ) (depotIdx : Option ℕ) (closed : Bool)
    (solver : Solver) (hlen : revs.length ≠ n) :
    solveTsp n dist (some revs) w depotIdx closed solver =
      solveTsp n dist none w depotIdx closed solver := by
  have hc : costMatrix n dist (some revs) w = costMatrix n dist none w := by
    simp only [costMatrix]
    rw [if_neg (fun h => hlen h.2)]
  unfold solveTsp
  rw [hc]

/-- Claim C9 witness: a length-1 revenues list on a 2 by 2 matrix yields
the same route as no revenues at all. -/
theorem c9_witness :
    solveTsp 2 (fun _ _ => 1) (some [5]) (1/3) none false (fun _ _ _ => none) =
      solveTsp 2 (fun _ _ => 1) none (1/3) none false (fun _ _ _ => none) :=
  c9_length_mismatch_skips_bias 2 (fun _ _ => 1) [5] (1/3) none false
    (fun _ _ _ => none) (by decide)

/-- Claim C1 (code bug): in FixedStart mode with depot 1 on a 3 by 3
matrix, the no-solution fallback returns [0, 1, 2], whose first element
is 0, not the depot. -/
theorem c1_fixedstart_fallback_drops_depot :
    solveTsp 3 (fun _ _ => 1) none (3/10) (some 1) false (fun _ _ _ => none) =
      [0, 1, 2] ∧
    (solveTsp 3 (fun _ _ => 1) none (3/10) (some 1) false
      (fun _ _ _ => none)).headD 0 ≠ 1 := by
  constructor <;> decide

/-- Claim C2 (code bug): the no-solution fallback does return the real
nodes in their original input order and returns normally, but it does not
move the fixed depot (here 2) to the front. -/
theorem c2_fallback_original_order_no_depot_first :
    solveTsp 4 (fun _ _ => 1) none (3/10) (some 2) false (fun _ _ _ => none) =
      [0, 1, 2, 3] ∧
    (solveTsp 4 (fun _ _ => 1) none (3/10) (some 2) false
      (fun _ _ _ => none)).headD 0 ≠ 2 := by
  constructor <;> decide

/-- Claim C10: in the FixedStart integer model, every outgoing arc of the
dummy end node costs exactly 999999999, a cell holding the unreachable
sentinel 1e9 scales to 10^12, and every dummy exit arc is strictly
cheaper than that scaled sentinel cell. -/
theorem c10_dummy_exit_arcs_below_sentinel (n : ℕ) (cost : ℕ → ℕ → ℚ)
    (i0 j0 : ℕ) (hi : i0 < n) (hj : j0 < n) (hs : cost i0 j0 = 10 ^ 9) :
    (∀ j, j < n → fixedStartIntMatrix n cost n j = 999999999) ∧
    fixedStartIntMatrix n cost i0 j0 = 10 ^ 12 ∧
    (∀ j, j < n →
      fixedStartIntMatrix n cost n j < fixedStartIntMatrix n cost i0 j0) := by
  have hcell : fixedStartIntMatrix n cost i0 j0 = 10 ^ 12 := by
    have hne : i0 ≠ n := Nat.ne_of_lt hi
    simp only [fixedStartIntMatrix, scaledIntMatrix]
    rw [if_neg (fun h => hne h.1), if_pos ⟨hi, hj⟩, hs]
    have harg : ((10 : ℚ) ^ 9) * 1000 = ((10 ^ 12 : ℤ) : ℚ) := by norm_num
    rw [truncInt, if_pos (by norm_num), harg, Int.floor_intCast]
  have hrow : ∀ j, j < n → fixedStartIntMatrix n cost n j = 999999999 := by
    intro j hjn
    unfold fixedStartIntMatrix
    rw [if_pos (show n = n ∧ j < n from ⟨rfl, hjn⟩)]
  refine ⟨hrow, hcell, ?_⟩
  intro j hjn
  rw [hrow j hjn, hcell]
  norm_num

/-- Claim C10 witness: on a 1-node matrix whose single cell holds the
sentinel, the dummy exit arc costs 999999999 and the sentinel cell scales
to 10^12. -/
theorem c10_witness :
    fixedStartIntMatrix 1 (fun _ _ => 10 ^ 9) 1 0 = 999999999 ∧
    fixedStartIntMatrix 1 (fun _ _ => 10 ^ 9) 0 0 = 10 ^ 12 :=
  ⟨(c10_dummy_exit_arcs_below_sentinel 1 (fun _ _ => 10 ^ 9) 0 0
      (by decide) (by decide) rfl).1 0 (by decide),
    (c10_dummy_exit_arcs_below_sentinel 1 (fun _ _ => 10 ^ 9) 0 0
      (by decide) (by decide) rfl).2.1⟩

/-- Claim C4 witness: concrete 2 by 2 instance of the bias formula. -/
theorem c4_witness :
    costMatrix 2 (fun _ _ => 3) (some [1, 2]) (1/2) 0 1 =
      (fun _ _ => (3 : ℚ)) 0 1 +
        (1/2) * npMax (matEntries 2 fun _ _ => 3) *
          (1 - ([(1 : ℚ), 2].getD 1 0) / npMax [(1 : ℚ), 2]) :=
  (c4_revenue_bias_formula 2 (fun _ _ => 3) [1, 2] (1/2) (by norm_num)
    (by decide) (by norm_num [npMax]) (fun _ _ _ _ => by norm_num)).1
    0 1 (by decide) (by decide)

theorem filter_range_succ_ne_last (n : ℕ) :
    ((List.range (n + 1)).filter fun i => decide (i ∉ [n])) = List.range n := by
  rw [List.range_succ, List.filter_append]
  have h1 : ((List.range n).filter fun i => decide (i ∉ [n])) = List.range n := by
    apply List.filter_eq_self.mpr
    intro a ha
    have : a < n := List.mem_range.mp ha
    simp
    omega
  have h2 : (([n] : List ℕ).filter fun i => decide (i ∉ [n])) = [] := by
    simp
  rw [h1, h2, List.append_nil]

/-- Claim C7: in Continue mode, whenever the search oracle honours the
single-vehicle contract (any found tour is a permutation of all n+1
routing nodes, dummy depot included), the returned route has exactly n
entries, contains every original index exactly once, and never contains
the synthetic index n; the no-solution fallback satisfies the same. -/
theorem c7_continue_route_exact (n : ℕ) (dist : ℕ → ℕ → ℚ)
    (revs : Option (List ℚ)) (w : ℚ) (solver : Solver)
    (hsol : ∀ tour,
      solver (scaledIntMatrix n (costMatrix n dist revs w)) (n + 1) (some n) =
        some tour → tour.Perm (List.range (n + 1))) :
    (solveTsp n dist revs w none false solver).length = n ∧
    (∀ k, k < n → (solveTsp n dist revs w none false solver).count k = 1) ∧
    n ∉ solveTsp n dist revs w none false solver := by
  have hred : solveTsp n dist revs w none false solver =
      solveAndExtract
        (solver (scaledIntMatrix n (costMatrix n dist revs w)) (n + 1) (some n))
        (n + 1) [n] := rfl
  have key : (solveTsp n dist revs w none false solver).Perm (List.range n) := by
    rw [hred]
    cases h : solver (scaledIntMatrix n (costMatrix n dist revs w)) (n + 1)
        (some n) with
    | none =>
      show ((List.range (n + 1)).filter fun i => decide (i ∉ [n])).Perm
        (List.range n)
      rw [filter_range_succ_ne_last n]
    | some tour =>
      show (tour.filter fun x => decide (x ∉ [n])).Perm (List.range n)
      have hp := List.Perm.filter (fun x => decide (x ∉ [n])) (hsol tour h)
      rw [filter_range_succ_ne_last n] at hp
      exact hp
  refine ⟨?_, ?_, ?_⟩
  · rw [key.length_eq, List.length_range]
  · intro k hk
    rw [key.count_eq]
    exact List.count_eq_one_of_mem (List.nodup_range n) (List.mem_range.mpr hk)
  · rw [key.mem_iff, List.mem_range]
    omega

/-- Claim C7 witness: a 2-node instance with a solver that returns the
tour [2, 0, 1] on the 3-node routing model. -/
theorem c7_witness :
    (solveTsp 2 (fun _ _ => 1) none (3/10) none false
        (fun _ _ _ => some [2, 0, 1])).length = 2 ∧
    (solveTsp 2 (fun _ _ => 1) none (3/10) none false
        (fun _ _ _ => some [2, 0, 1])).count 0 = 1 ∧
    2 ∉ solveTsp 2 (fun _ _ => 1) none (3/10) none false
        (fun _ _ _ => some [2, 0, 1]) := by
  have h := c7_continue_route_exact 2 (fun _ _ => 1) none (3/10)
    (fun _ _ _ => some [2, 0, 1])
    (fun tour htour => (Option.some.inj htour) ▸
      (by decide : ([2, 0, 1] : List ℕ).Perm (List.range 3)))
  exact ⟨h.1, h.2.1 0 (by decide), h.2.2⟩

theorem mem_dedupFirst (a : ℕ) : ∀ l : List ℕ, a ∈ dedupFirst l ↔ a ∈ l := by
  intro l
  induction l with
  | nil => simp [dedupFirst]
  | cons x xs ih =>
    simp only [dedupFirst, List.mem_cons, List.mem_filter, ih, decide_eq_true_eq]
    by_cases hax : a = x
    · simp [hax]
    · simp [hax]

theorem getD_map_lt {α β : Type} (f : α → β) (l : List α) (r : ℕ)
    (hr : r < l.length) (d : β) (d0 : α) :
    (l.map f).getD r d = f (l.getD r d0) := by
  have hr2 : r < (l.map f).length := by simpa using hr
  rw [List.getD_eq_getElem _ _ hr2, List.getD_eq_getElem _ _ hr]
  simp

theorem getD_mem_self {α : Type} (l : List α) (r : ℕ) (hr : r < l.length)
    (d : α) : l.getD r d ∈ l := by
  rw [List.getD_eq_getElem _ _ hr]
  exact List.getElem_mem hr

theorem subCoords_lookup {P : Type} [Inhabited P] (coords : List P)
    (combined : List ℕ) (g : ℕ) (hg : g ∈ combined) :
    (combined.map fun i => coords.getD i default).getD
        (combined.indexOf g) default = coords.getD g default := by
  have h : combined.indexOf g < combined.length :=
    List.indexOf_lt_length.mpr hg
  rw [getD_map_lt _ combined _ h _ 0, List.getD_eq_getElem _ _ h,
    List.getElem_indexOf h]

theorem sanitizeChunk_eq_sanitizeSingle (v : Option ℚ) :
    sanitizeChunk v = sanitizeSingle v := by
  cases v with
  | none => rfl
  | some x =>
    simp only [sanitizeChunk, sanitizeSingle]
    split_ifs with h1 h2 <;> first | rfl | linarith

theorem sanitizeSingle_nonneg (v : Option ℚ) : 0 ≤ sanitizeSingle v := by
  cases v with
  | none => norm_num [sanitizeSingle]
  | some x =>
    simp only [sanitizeSingle]
    split_ifs with h
    · norm_num
    · exact le_of_not_lt h

theorem sanitizeChunk_nonneg (v : Option ℚ) : 0 ≤ sanitizeChunk v := by
  rw [sanitizeChunk_eq_sanitizeSingle]
  exact sanitizeSingle_nonneg v

theorem foldl_preserve {α β : Type} (F : β → α → β) (Q : β → Prop)
    (l : List α) (h : ∀ b a, Q b → Q (F b a)) :
    ∀ b, Q b → Q (l.foldl F b) := by
  induction l with
  | nil => intro b hb; exact hb
  | cons a t ih => intro b hb; exact ih (F b a) (h b a hb)

theorem foldl_update_mem_aux (l : List ℕ)
    (step : ℕ → (ℕ → ℕ → ℚ) → (ℕ → ℕ → ℚ))
    (Cond : ℕ → ℕ → ℕ → Prop) [inst : ∀ a b g, Decidable (Cond a b g)]
    (T : ℕ → ℕ → ℚ)
    (hstep : ∀ r, r < l.length → ∀ m a b,
      step r m a b = if Cond a b (l.getD r 0) then T a b else m a b) :
    ∀ k, k ≤ l.length → ∀ (m : ℕ → ℕ → ℚ) (a b : ℕ),
      ((List.range k).foldl (fun m r => step r m) m) a b
        = if ∃ g ∈ l.take k, Cond a b g then T a b else m a b := by
  intro k
  induction k with
  | zero =>
    intro _ m a b
    simp
  | succ k ih =>
    intro hk m a b
    have hkl : k < l.length := by omega
    rw [List.range_succ, List.foldl_append]
    simp only [List.foldl_cons, List.foldl_nil]
    rw [hstep k hkl]
    have htake : l.take (k + 1) = l.take k ++ [l.getD k 0] := by
      rw [List.take_succ]
      congr 1
      rw [List.getElem?_eq_getElem hkl, List.getD_eq_getElem _ _ hkl]
      rfl
    by_cases h1 : Cond a b (l.getD k 0)
    · rw [if_pos h1, if_pos]
      refine ⟨l.getD k 0, ?_, h1⟩
      rw [htake]
      simp
    · rw [if_neg h1, ih (by omega) m a b]
      by_cases h2 : ∃ g ∈ l.take k, Cond a b g
      · rw [if_pos h2, if_pos]
        rcases h2 with ⟨g, hg, hcg⟩
        refine ⟨g, ?_, hcg⟩
        rw [htake]
        simp [hg]
      · rw [if_neg h2, if_neg]
        intro hcon
        rcases hcon with ⟨g, hg, hcg⟩
        rw [htake] at hg
        rcases List.mem_append.mp hg with hg2 | hg2
        · exact h2 ⟨g, hg2, hcg⟩
        · rw [List.mem_singleton.mp hg2] at hcg
          exact h1 hcg

theorem foldl_update_mem (l : List ℕ)
    (step : ℕ → (ℕ → ℕ → ℚ) → (ℕ → ℕ → ℚ))
    (Cond : ℕ → ℕ → ℕ → Prop) [inst : ∀ a b g, Decidable (Cond a b g)]
    (T : ℕ → ℕ → ℚ)
    (hstep : ∀ r, r < l.length → ∀ m a b,
      step r m a b = if Cond a b (l.getD r 0) then T a b else m a b)
    (m : ℕ → ℕ → ℚ) (a b : ℕ) :
    ((List.range l.length).foldl (fun m r => step r m) m) a b
      = if ∃ g ∈ l, Cond a b g then T a b else m a b := by
  have h := foldl_update_mem_aux l step Cond T hstep l.length (le_refl _) m a b
  rwa [List.take_length] at h

theorem chunkPairRequest_mock {P : Type} [Inhabited P] (f : P → P → Option ℚ)
    (coords : List P) (sc dc : List ℕ) :
    chunkPairRequest (mockService f) coords sc dc =
      some (mockDistances f coords sc dc) := rfl

theorem mockDistances_cell {P : Type} [Inhabited P] (f : P → P → Option ℚ)
    (coords : List P) (sc dc : List ℕ) (r c : ℕ)
    (hr : r < sc.length) (hc : c < dc.length) :
    (((mockDistances f coords sc dc).getD r []).getD c none)
      = f (coords.getD (sc.getD r 0) default)
          (coords.getD (dc.getD c 0) default) := by
  have hmem1 : sc.getD r 0 ∈ dedupFirst (sc ++ dc) :=
    (mem_dedupFirst _ _).mpr (List.mem_append.mpr (Or.inl (getD_mem_self sc r hr 0)))
  have hmem2 : dc.getD c 0 ∈ dedupFirst (sc ++ dc) :=
    (mem_dedupFirst _ _).mpr (List.mem_append.mpr (Or.inr (getD_mem_self dc c hc 0)))
  have h1 : (sc.map fun i => (dedupFirst (sc ++ dc)).indexOf i).getD r 0
      = (dedupFirst (sc ++ dc)).indexOf (sc.getD r 0) :=
    getD_map_lt _ sc r hr 0 0
  have h2 : (dc.map fun i => (dedupFirst (sc ++ dc)).indexOf i).getD c 0
      = (dedupFirst (sc ++ dc)).indexOf (dc.getD c 0) :=
    getD_map_lt _ dc c hc 0 0
  dsimp only [mockDistances]
  rw [getD_map_lt _ _ r (by simpa using hr) [] 0, h1,
    getD_map_lt _ _ c (by simpa using hc) none 0, h2,
    subCoords_lookup coords _ _ hmem1, subCoords_lookup coords _ _ hmem2]

theorem writeChunkPair_mock {P : Type} [Inhabited P] (f : P → P → Option ℚ)
    (coords : List P) (sc dc : List ℕ) (m : ℕ → ℕ → ℚ) (a b : ℕ) :
    writeChunkPair sc dc (mockDistances f coords sc dc) m a b
      = if a ∈ sc ∧ b ∈ dc
        then sanitizeChunk (f (coords.getD a default) (coords.getD b default))
        else m a b := by
  have hstep : ∀ r, r < sc.length → ∀ (m : ℕ → ℕ → ℚ) (a b : ℕ),
      ((List.range dc.length).foldl
        (fun m c => mUpdate m (sc.getD r 0) (dc.getD c 0)
          (sanitizeChunk (((mockDistances f coords sc dc).getD r []).getD c none)))
        m) a b
      = if a = sc.getD r 0 ∧ b ∈ dc
        then sanitizeChunk (f (coords.getD a default) (coords.getD b default))
        else m a b := by
    intro r hr m a b
    have hstep2 : ∀ c, c < dc.length → ∀ (m : ℕ → ℕ → ℚ) (a b : ℕ),
        mUpdate m (sc.getD r 0) (dc.getD c 0)
          (sanitizeChunk (((mockDistances f coords sc dc).getD r []).getD c none)) a b
        = if a = sc.getD r 0 ∧ b = dc.getD c 0
          then sanitizeChunk (f (coords.getD a default) (coords.getD b default))
          else m a b := by
      intro c hc m a b
      unfold mUpdate
      rw [mockDistances_cell f coords sc dc r c hr hc]
      by_cases h : a = sc.getD r 0 ∧ b = dc.getD c 0
      · rw [if_pos h, if_pos h, h.1, h.2]
      · rw [if_neg h, if_neg h]
    have hinner := foldl_update_mem dc
      (fun c m => mUpdate m (sc.getD r 0) (dc.getD c 0)
        (sanitizeChunk (((mockDistances f coords sc dc).getD r []).getD c none)))
      (fun a b g => a = sc.getD r 0 ∧ b = g)
      (fun a b => sanitizeChunk (f (coords.getD a default) (coords.getD b default)))
      hstep2 m a b
    rw [hinner]
    apply if_congr _ rfl rfl
    constructor
    · rintro ⟨g, hg, ha, hb⟩
      exact ⟨ha, hb ▸ hg⟩
    · rintro ⟨ha, hb⟩
      exact ⟨b, hb, ha, rfl⟩
  have houter := foldl_update_mem sc
    (fun r m =>
      (List.range dc.length).foldl
        (fun m c => mUpdate m (sc.getD r 0) (dc.getD c 0)
          (sanitizeChunk (((mockDistances f coords sc dc).getD r []).getD c none)))
        m)
    (fun a b g => a = g ∧ b ∈ dc)
    (fun a b => sanitizeChunk (f (coords.getD a default) (coords.getD b default)))
    hstep m a b
  unfold writeChunkPair
  rw [houter]
  apply if_congr _ rfl rfl
  constructor
  · rintro ⟨g, hg, ha, hb⟩
    exact ⟨ha ▸ hg, hb⟩
  · rintro ⟨ha, hb⟩
    exact ⟨a, ha, rfl, hb⟩

theorem runChunkPairs_mock_eq {P : Type} [Inhabited P] (f : P → P → Option ℚ)
    (coords : List P) :
    ∀ (PL : List (List ℕ × List ℕ)) (m : ℕ → ℕ → ℚ),
      runChunkPairs (mockService f) coords PL m =
        some (chunkAccum f coords PL m) := by
  intro PL
  induction PL with
  | nil => intro m; rfl
  | cons p rest ih =>
    intro m
    rw [runChunkPairs, chunkPairRequest_mock]
    exact ih _

theorem chunkAccum_cell {P : Type} [Inhabited P] (f : P → P → Option ℚ)
    (coords : List P) :
    ∀ (PL : List (List ℕ × List ℕ)) (m : ℕ → ℕ → ℚ) (a b : ℕ),
      chunkAccum f coords PL m a b =
        if ∃ p ∈ PL, a ∈ p.1 ∧ b ∈ p.2
        then sanitizeChunk (f (coords.getD a default) (coords.getD b default))
        else m a b := by
  intro PL
  induction PL with
  | nil => intro m a b; simp [chunkAccum]
  | cons p rest ih =>
    intro m a b
    rw [chunkAccum, ih]
    by_cases h1 : ∃ q ∈ rest, a ∈ q.1 ∧ b ∈ q.2
    · rw [if_pos h1, if_pos]
      rcases h1 with ⟨q, hq, hab⟩
      exact ⟨q, List.mem_cons_of_mem p hq, hab⟩
    · rw [if_neg h1, writeChunkPair_mock]
      by_cases h2 : a ∈ p.1 ∧ b ∈ p.2
      · rw [if_pos h2, if_pos ⟨p, List.mem_cons_self p rest, h2⟩]
      · rw [if_neg h2, if_neg]
        rintro ⟨q, hq, hab⟩
        rcases List.mem_cons.mp hq with hq2 | hq2
        · exact h2 (hq2 ▸ hab)
        · exact h1 ⟨q, hq2, hab⟩

theorem mem_osrmChunks_iff (n cs a : ℕ) (hcs : 0 < cs) :
    (∃ c ∈ osrmChunks n cs, a ∈ c) ↔ a < n := by
  constructor
  · rintro ⟨c, hc, hac⟩
    simp only [osrmChunks, List.mem_map, List.mem_range] at hc
    rcases hc with ⟨q, hq, rfl⟩
    rw [List.mem_range'_1] at hac
    clear hq
    generalize q * cs = s at hac
    omega
  · intro ha
    have h1 : (a / cs) * cs ≤ a := Nat.div_mul_le_self a cs
    have h3 : cs * (a / cs) + a % cs = a := Nat.div_add_mod a cs
    rw [Nat.mul_comm cs (a / cs)] at h3
    have h4 : a % cs < cs := Nat.mod_lt a hcs
    have hlt : a < (a / cs) * cs + cs := by omega
    have hqbound : a / cs < (n + cs - 1) / cs := by
      have hmul : (a / cs + 1) * cs ≤ n + cs - 1 := by
        have : (a / cs + 1) * cs = (a / cs) * cs + cs := by ring
        rw [this]
        omega
      have := (Nat.le_div_iff_mul_le hcs).mpr hmul
      omega
    refine ⟨List.range' ((a / cs) * cs) (min ((a / cs) * cs + cs) n - (a / cs) * cs),
      ?_, ?_⟩
    · simp only [osrmChunks, List.mem_map, List.mem_range]
      exact ⟨a / cs, hqbound, rfl⟩
    · rw [List.mem_range'_1]
      constructor
      · exact h1
      · have hmin : a < min ((a / cs) * cs + cs) n := lt_min hlt ha
        omega

theorem exists_chunkPair_iff (n cs a b : ℕ) (hcs : 0 < cs) :
    (∃ p ∈ chunkPairs n cs, a ∈ p.1 ∧ b ∈ p.2) ↔ a < n ∧ b < n := by
  constructor
  · rintro ⟨p, hp, ha, hb⟩
    simp only [chunkPairs, List.mem_flatMap, List.mem_map] at hp
    rcases hp with ⟨sc, hsc, dc, hdc, rfl⟩
    exact ⟨(mem_osrmChunks_iff n cs a hcs).mp ⟨sc, hsc, ha⟩,
      (mem_osrmChunks_iff n cs b hcs).mp ⟨dc, hdc, hb⟩⟩
  · rintro ⟨ha, hb⟩
    rcases (mem_osrmChunks_iff n cs a hcs).mpr ha with ⟨sc, hsc, hasc⟩
    rcases (mem_osrmChunks_iff n cs b hcs).mpr hb with ⟨dc, hdc, hbdc⟩
    refine ⟨(sc, dc), ?_, hasc, hbdc⟩
    simp only [chunkPairs, List.mem_flatMap, List.mem_map]
    exact ⟨sc, hsc, dc, hdc, rfl⟩

theorem osrmSinglePath_mock_cell {P : Type} [Inhabited P]
    (f : P → P → Option ℚ) (coords : List P) (i j : ℕ)
    (hi : i < coords.length) (hj : j < coords.length) :
    (osrmSinglePath (mockService f) coords).getD zeroMat i j
      = sanitizeSingle (f (coords.getD i default) (coords.getD j default)) := by
  have hri : (List.range coords.length).getD i 0 = i := by
    rw [List.getD_eq_getElem _ _ (by simpa using hi)]
    exact List.getElem_range i _
  have hrj : (List.range coords.length).getD j 0 = j := by
    rw [List.getD_eq_getElem _ _ (by simpa using hj)]
    exact List.getElem_range j _
  show sanitizeSingle
    ((((List.range coords.length).map fun s => (List.range coords.length).map
        fun d => f (coords.getD s default) (coords.getD d default)).getD i []).getD
      j none) = _
  rw [getD_map_lt _ _ i (by simpa using hi) [] 0, hri,
    getD_map_lt _ _ j (by simpa using hj) none 0, hrj]

/-- Claim C3: for any consistent service responses, any chunk size and
any point list, the matrix assembled by the chunked path agrees cell for
cell (on all in-range cells) with the matrix of the single full-table
request: chunking is purely an assembly strategy. -/
theorem c3_chunked_eq_single {P : Type} [Inhabited P] (f : P → P → Option ℚ)
    (coords : List P) (cs : ℕ) (hcs : 0 < cs) (i j : ℕ)
    (hi : i < coords.length) (hj : j < coords.length) :
    (osrmChunkedPath (mockService f) coords cs).getD zeroMat i j
      = (osrmSinglePath (mockService f) coords).getD zeroMat i j := by
  rw [osrmSinglePath_mock_cell f coords i j hi hj]
  unfold osrmChunkedPath
  rw [runChunkPairs_mock_eq f coords _ zeroMat, Option.getD_some,
    chunkAccum_cell f coords _ zeroMat i j,
    if_pos ((exists_chunkPair_iff coords.length cs i j hcs).mpr ⟨hi, hj⟩)]
  exact sanitizeChunk_eq_sanitizeSingle _

/-- Claim C3 witness: three points, cap lowered to chunk size 1, constant
mocked responses; cell (0, 2) agrees between the two paths. -/
theorem c3_witness :
    (osrmChunkedPath (mockService fun _ _ => some 7) ([1, 2, 3] : List ℕ) 1).getD
        zeroMat 0 2
      = (osrmSinglePath (mockService fun _ _ => some 7)
          ([1, 2, 3] : List ℕ)).getD zeroMat 0 2 :=
  c3_chunked_eq_single (fun _ _ => some 7) [1, 2, 3] 1 (by decide) 0 2
    (by decide) (by decide)

theorem runChunkPairs_none_of_fail {P : Type} [Inhabited P]
    (σ : OsrmService P) (coords : List P) :
    ∀ (PL : List (List ℕ × List ℕ)) (m : ℕ → ℕ → ℚ),
      (∃ p ∈ PL, chunkPairRequest σ coords p.1 p.2 = none) →
      runChunkPairs σ coords PL m = none := by
  intro PL
  induction PL with
  | nil =>
    rintro m ⟨p, hp, _⟩
    simp at hp
  | cons q rest ih =>
    rintro m ⟨p, hp, hfail⟩
    simp only [runChunkPairs]
    cases hq : chunkPairRequest σ coords q.1 q.2 with
    | none => rfl
    | some d =>
      rcases List.mem_cons.mp hp with h | h
      · rw [h] at hfail
        rw [hq] at hfail
        exact absurd hfail (by simp)
      · exact ih _ ⟨p, h, hfail⟩

/-- Claim C5: whenever any live-service sub-request fails, the whole live
attempt is discarded and compute distance matrix returns exactly the
haversine fallback matrix (and, being a total function, it returns
normally on every non-empty point list). -/
theorem c5_failure_falls_back (σ : OsrmService (ℝ × ℝ))
    (coords : List (ℝ × ℝ)) (hne : coords ≠ [])
    (hfail : liveAttemptFails σ coords) :
    computeDistanceMatrix σ true coords = haversineMatrix coords := by
  have hosrm : osrmFullMatrix σ coords = none := by
    rcases hfail with ⟨hle, hnone⟩ | ⟨hgt, hex⟩
    · unfold osrmFullMatrix
      rw [if_pos hle]
      unfold osrmSinglePath
      rw [hnone]
    · unfold osrmFullMatrix
      rw [if_neg (Nat.not_le.mpr hgt)]
      exact runChunkPairs_none_of_fail σ coords _ zeroMat hex
  unfold computeDistanceMatrix
  rw [if_pos rfl, hosrm]

/-- Claim C5 witness: a service that fails every request on a two-point
list forces the haversine fallback. -/
theorem c5_witness :
    computeDistanceMatrix (fun _ _ _ => none) true
        [((0 : ℝ), (0 : ℝ)), ((1 : ℝ), (1 : ℝ))]
      = haversineMatrix [((0 : ℝ), (0 : ℝ)), ((1 : ℝ), (1 : ℝ))] :=
  c5_failure_falls_back (fun _ _ _ => none) _ (by simp)
    (Or.inl ⟨by norm_num [OSRM_MAX_COORDS], rfl⟩)

theorem writeChunkPair_nonneg (sc dc : List ℕ) (D : List (List (Option ℚ)))
    (m : ℕ → ℕ → ℚ) (hm : ∀ a b, 0 ≤ m a b) :
    ∀ a b, 0 ≤ writeChunkPair sc dc D m a b := by
  unfold writeChunkPair
  refine foldl_preserve _ (fun m => ∀ a b, 0 ≤ m a b) _ ?_ m hm
  intro m0 r hm0
  refine foldl_preserve _ (fun m => ∀ a b, 0 ≤ m a b) _ ?_ m0 hm0
  intro m1 c hm1 a b
  unfold mUpdate
  split_ifs
  · exact sanitizeChunk_nonneg _
  · exact hm1 a b

theorem runChunkPairs_nonneg {P : Type} [Inhabited P] (σ : OsrmService P)
    (coords : List P) :
    ∀ (PL : List (List ℕ × List ℕ)) (m : ℕ → ℕ → ℚ),
      (∀ a b, 0 ≤ m a b) →
      ∀ a b, 0 ≤ (runChunkPairs σ coords PL m).getD zeroMat a b := by
  intro PL
  induction PL with
  | nil => intro m hm a b; exact hm a b
  | cons q rest ih =>
    intro m hm a b
    cases hq : chunkPairRequest σ coords q.1 q.2 with
    | none =>
      have hnone : runChunkPairs σ coords (q :: rest) m = none := by
        simp only [runChunkPairs]
        rw [hq]
      rw [hnone]
      norm_num [zeroMat]
    | some d =>
      have hsome : runChunkPairs σ coords (q :: rest) m =
          runChunkPairs σ coords rest (writeChunkPair q.1 q.2 d m) := by
        simp only [runChunkPairs]
        rw [hq]
      rw [hsome]
      exact ih _ (writeChunkPair_nonneg q.1 q.2 d m hm) a b

/-- Claim C6: every cell of any matrix the live-service path produces is
non-negative (hence finite by type), and the cleanup functions of both
paths replace a null or negative service cell with the sentinel 1e9. -/
theorem c6_live_matrix_nonneg {P : Type} [Inhabited P] (σ : OsrmService P)
    (coords : List P) (h : (osrmFullMatrix σ coords).isSome = true) :
    (∀ i j, 0 ≤ (osrmFullMatrix σ coords).getD zeroMat i j) ∧
    (∀ v : Option ℚ, v = none ∨ (∃ x, v = some x ∧ x < 0) →
      sanitizeSingle v = 10 ^ 9 ∧ sanitizeChunk v = 10 ^ 9) := by
  constructor
  · intro i j
    unfold osrmFullMatrix
    split_ifs with hle
    · unfold osrmSinglePath
      cases hσ : σ coords (List.range coords.length) (List.range coords.length)
        with
      | none => exact le_refl 0
      | some distances => exact sanitizeSingle_nonneg _
    · exact runChunkPairs_nonneg σ coords _ zeroMat (fun a b => le_refl 0) i j
  · intro v hv
    rcases hv with rfl | ⟨x, rfl, hx⟩
    · exact ⟨rfl, rfl⟩
    · constructor
      · simp only [sanitizeSingle]
        rw [if_pos hx]
      · simp only [sanitizeChunk]
        rw [if_neg (not_le.mpr hx)]

/-- Claim C6 witness: a mocked service reporting a negative distance on a
two-point list yields a non-negative cell, and the negative raw value is
replaced with the sentinel. -/
theorem c6_witness :
    0 ≤ (osrmFullMatrix (mockService fun _ _ => some (-3))
          ([4, 5] : List ℕ)).getD zeroMat 0 1 ∧
    sanitizeSingle (some (-3)) = 10 ^ 9 := by
  have h := c6_live_matrix_nonneg (mockService fun _ _ => some (-3))
    ([4, 5] : List ℕ) (by rfl)
  exact ⟨h.1 0 1, (h.2 (some (-3)) (Or.inr ⟨-3, rfl, by norm_num⟩)).1⟩

theorem haversineEntry_symm (c1 c2 : ℝ × ℝ) :
    haversineEntry c1 c2 = haversineEntry c2 c1 := by
  unfold haversineEntry
  have hs : ∀ x y : ℝ, Real.sin ((x - y) / 2) ^ 2 = Real.sin ((y - x) / 2) ^ 2 := by
    intro x y
    have hxy : (x - y) / 2 = -((y - x) / 2) := by ring
    rw [hxy, Real.sin_neg]
    ring
  rw [hs (c2.1 * (Real.pi / 180)) (c1.1 * (Real.pi / 180)),
    hs (c2.2 * (Real.pi / 180)) (c1.2 * (Real.pi / 180)),
    mul_comm (Real.cos (c1.1 * (Real.pi / 180)))
      (Real.cos (c2.1 * (Real.pi / 180)))]

theorem haversineEntry_diag (c : ℝ × ℝ) : haversineEntry c c = 0 := by
  unfold haversineEntry
  rw [sub_self, sub_self]
  simp [Real.sin_zero, Real.sqrt_zero, Real.arcsin_zero]

/-- Claim C8: on any point list (of size at least 2, as the spec states
it), the haversine fallback matrix is symmetric and has zero diagonal. -/
theorem c8_haversine_symm_diag (coords : List (ℝ × ℝ))
    (h2 : 2 ≤ coords.length) (i j : ℕ) :
    haversineMatrix coords i j = haversineMatrix coords j i ∧
    haversineMatrix coords i i = 0 :=
  ⟨haversineEntry_symm _ _, haversineEntry_diag _⟩

/-- Claim C8 witness: concrete two-point list, cells (0,1) and (1,0)
agree and the diagonal cell (0,0) is zero. -/
theorem c8_witness :
    haversineMatrix [((0 : ℝ), (0 : ℝ)), ((1 : ℝ), (1 : ℝ))] 0 1
      = haversineMatrix [((0 : ℝ), (0 : ℝ)), ((1 : ℝ), (1 : ℝ))] 1 0 ∧
    haversineMatrix [((0 : ℝ), (0 : ℝ)), ((1 : ℝ), (1 : ℝ))] 0 0 = 0 :=
  c8_haversine_symm_diag _ (by simp) 0 1
